import Mathlib

/-!
# Verification of `src/create_dict.py` (`create_rust_dictionary_file`)

Shallow embedding of the dictionary-to-Rust-table generator.  The Python
function reads a tab-separated dictionary file line by line, keeps only
first-column values that are a single whitespace token, splits them on commas,
strips each piece, keeps the pieces that are non-empty and match the regular
expression `^[a-zA-Z]+$`, groups the surviving words by character length,
computes the maximal group size, sorts each group, pads every group with
`None` up to the maximal size, and emits all groups except the first
(smallest-length) one as a fixed-size nested Rust array literal whose declared
dimensions are `[[Option<&'static str>; max_length]; len(result)-1]`.

Words and lines are modelled as `List Char`; the Python string primitives
(`str.strip`, `str.split('\t')`, `str.split()`, `str.split(',')`,
`re.match(r'^[a-zA-Z]+$', w)`) are modelled by executable functions below.
The emitted file is modelled by its semantic content `RustDictOutput`:
the two declared dimensions printed in the header and the list of emitted
rows, where each cell is `some w` (printed `Some("w")`) or `none`
(printed `None`).  The `max()` call raises `ValueError` on an empty
dictionary, before the output file is opened; this is modelled by
`Except.error`.
-/

namespace CreateDict

/-- The whitespace characters stripped/split by Python's `str.strip()` and
`str.split()` (the ASCII ones; the inputs considered here contain no other
Unicode whitespace). -/
def isPySpace (c : Char) : Bool :=
  c = ' ' || c = '\t' || c = '\n' || c = '\r' || c = '\x0b' || c = '\x0c'

/-- Python `s.strip()`: remove leading and trailing whitespace. -/
def pyStrip (l : List Char) : List Char :=
  ((l.dropWhile isPySpace).reverse.dropWhile isPySpace).reverse

/-- Split a character list at every character satisfying `p`, keeping empty
pieces — the semantics of Python `s.split(sep)` for a one-character `sep`
(with `p` the equality test).  The result is always non-empty. -/
def splitOnP (p : Char → Bool) : List Char → List (List Char)
  | [] => [[]]
  | c :: cs =>
    let rest := splitOnP p cs
    if p c then [] :: rest
    else (c :: rest.headD []) :: rest.tail

/-- Python `s.split()` (no argument): split on whitespace runs, discarding
empty pieces. -/
def pySplitWs (l : List Char) : List (List Char) :=
  (splitOnP isPySpace l).filter (fun x => !x.isEmpty)

/-- The candidate first-column field of a line:
`line.split('\t')[0].strip()`. -/
def firstColumn (line : List Char) : List Char :=
  pyStrip ((splitOnP (fun c => c = '\t') line).headD [])

/-- An unaccented Latin letter, the character class `[a-zA-Z]`. -/
def isLatinLetter (c : Char) : Bool :=
  ('a' ≤ c && c ≤ 'z') || ('A' ≤ c && c ≤ 'Z')

/-- Python `re.match(r'^[a-zA-Z]+$', w)` succeeds: `w` is one or more Latin
letters, where `$` also matches just before one newline at the very end of
the string (a quirk of Python's `$`; irrelevant for stripped words, which
cannot end in a newline, but modelled faithfully). -/
def reMatchAlpha (w : List Char) : Bool :=
  let core := if w.getLast? = some '\n' then w.dropLast else w
  !core.isEmpty && core.all isLatinLetter

/-- The words a candidate field contributes to `length_dict`: if the field is
a single whitespace token, split it on commas, strip each piece, and keep the
pieces that are non-empty and match `^[a-zA-Z]+$`; otherwise nothing. -/
def candidateWords (fc : List Char) : List (List Char) :=
  if (pySplitWs fc).length = 1 then
    ((splitOnP (fun c => c = ',') fc).map pyStrip).filter
      (fun w => !w.isEmpty && reMatchAlpha w)
  else []

/-- The words one input line contributes to `length_dict`. -/
def lineWords (line : List Char) : List (List Char) :=
  candidateWords (firstColumn line)

/-- All surviving words of the input file, in encounter order (the
concatenation of the per-line contributions). -/
def allWords (lines : List (List Char)) : List (List Char) :=
  (lines.map lineWords).flatten

/-- Group `length_dict[k]`: the surviving words of character length `k`, in
encounter order. -/
def groupFor (lines : List (List Char)) (k : ℕ) : List (List Char) :=
  (allWords lines).filter (fun w => w.length = k)

/-- The largest character length among surviving words (`0` if none). -/
def maxWordLen (lines : List (List Char)) : ℕ :=
  ((allWords lines).map List.length).foldr Nat.max 0

/-- The distinct length keys present, in ascending order:
`sorted(length_dict)`. -/
def sortedKeys (lines : List (List Char)) : List ℕ :=
  (List.range (maxWordLen lines + 1)).filter
    (fun k => (allWords lines).any (fun w => w.length = k))

/-- The largest group size,
`max(len(group) for group in length_dict.values())` (`0` if there are no groups; the Python `max` raises `ValueError` in
that case, which the top-level function models as `Except.error`). -/
def maxGroupSize (lines : List (List Char)) : ℕ :=
  ((sortedKeys lines).map (fun k => (groupFor lines k).length)).foldr Nat.max 0

/-- The group for `k` sorted in ascending lexicographic (code-point) order —
the order Python `sorted` uses on strings: `sorted(length_dict[key])`. -/
def sortedGroup (lines : List (List Char)) (k : ℕ) : List (List Char) :=
  List.insertionSort (· ≤ ·) (groupFor lines k)

/-- One row of `result`: the sorted group, padded with `None` while shorter
than `max_length`, then truncated to `max_length`
(`sorted_words[:max_length]`). -/
def paddedRow (lines : List (List Char)) (k : ℕ) : List (Option (List Char)) :=
  (((sortedGroup lines k).map some) ++
    List.replicate (maxGroupSize lines - (sortedGroup lines k).length) none).take
    (maxGroupSize lines)

/-- The semantic content of the generated Rust file: the two dimensions
printed in the header `[[Option<&'static str>; headerInner]; headerOuter]`
and the emitted rows (`result[1:]`), each cell `some w` for `Some("w")` or
`none` for `None`. -/
structure RustDictOutput where
  headerInner : ℕ
  headerOuter : ℕ
  rows : List (List (Option (List Char)))
deriving DecidableEq, Repr

/-- The whole transform.  When no word survives filtering (`length_dict` is
empty) the Python `max()` raises `ValueError` before the output file is
opened, so nothing is written: modelled by `Except.error`.  Otherwise the
output file's content is produced in one go. -/
def create_rust_dictionary_file (lines : List (List Char)) :
    Except String RustDictOutput :=
  if allWords lines = [] then
    Except.error "max() arg is an empty sequence"
  else
    Except.ok
      { headerInner := maxGroupSize lines
        headerOuter := ((sortedKeys lines).map (paddedRow lines)).length - 1
        rows := ((sortedKeys lines).map (paddedRow lines)).drop 1 }

/-! ## Basic lemmas about the Python string primitives -/

theorem splitOnP_ne_nil (p : Char → Bool) (l : List Char) : splitOnP p l ≠ [] := by
  cases l with
  | nil => simp [splitOnP]
  | cons c cs => simp only [splitOnP]; split <;> simp

theorem splitOnP_eq_of_forall (p : Char → Bool) (l : List Char)
    (h : ∀ c ∈ l, p c = false) : splitOnP p l = [l] := by
  induction l with
  | nil => rfl
  | cons c cs ih =>
    have hc : p c = false := h c (List.mem_cons_self c cs)
    have ih' : splitOnP p cs = [cs] := ih fun x hx => h x (List.mem_cons_of_mem c hx)
    simp [splitOnP, hc, ih']

theorem head?_dropWhile {α : Type} (p : α → Bool) (l : List α) {c : α}
    (h : (l.dropWhile p).head? = some c) : p c = false := by
  induction l with
  | nil => simp [List.dropWhile] at h
  | cons a t ih =>
    rw [List.dropWhile_cons] at h
    by_cases hpa : p a = true
    · rw [if_pos hpa] at h
      exact ih h
    · rw [if_neg hpa] at h
      simp only [List.head?_cons, Option.some.injEq] at h
      subst h
      simpa using hpa

theorem pyStrip_getLast?_not_space {l : List Char} {c : Char}
    (h : (pyStrip l).getLast? = some c) : isPySpace c = false := by
  unfold pyStrip at h
  rw [List.getLast?_reverse] at h
  exact head?_dropWhile _ _ h

/-- On a stripped word the `$`-before-final-newline quirk of `re.match` is
irrelevant: the match succeeds exactly when the word is non-empty and all
Latin letters. -/
theorem reMatchAlpha_pyStrip (l : List Char) :
    reMatchAlpha (pyStrip l) =
      (!(pyStrip l).isEmpty && (pyStrip l).all isLatinLetter) := by
  unfold reMatchAlpha
  cases h : (pyStrip l).getLast? with
  | none => simp [h]
  | some c =>
    have hc : isPySpace c = false := pyStrip_getLast?_not_space h
    have hne : c ≠ '\n' := by
      intro hcn
      rw [hcn] at hc
      simp [isPySpace] at hc
    simp [h, hne]

/-! ## Membership of surviving words -/

theorem mem_candidateWords {fc w : List Char} :
    w ∈ candidateWords fc ↔
      (pySplitWs fc).length = 1 ∧
      w ∈ (splitOnP (fun c => c = ',') fc).map pyStrip ∧
      w ≠ [] ∧ reMatchAlpha w = true := by
  unfold candidateWords
  split
  next h =>
    simp [List.mem_filter, h, List.isEmpty_iff, and_assoc]
  next h =>
    simp only [List.not_mem_nil, false_iff]
    intro hcontra
    exact h hcontra.1

theorem mem_lineWords_alpha {line w : List Char} (h : w ∈ lineWords line) :
    w ≠ [] ∧ w.all isLatinLetter = true := by
  unfold lineWords at h
  rw [mem_candidateWords] at h
  obtain ⟨-, hmem, hne, hre⟩ := h
  obtain ⟨piece, -, rfl⟩ := List.mem_map.1 hmem
  rw [reMatchAlpha_pyStrip] at hre
  refine ⟨hne, ?_⟩
  exact (Bool.and_eq_true_iff.1 hre).2

theorem mem_allWords {lines : List (List Char)} {w : List Char} :
    w ∈ allWords lines ↔ ∃ line ∈ lines, w ∈ lineWords line := by
  simp [allWords, List.mem_flatten, List.mem_map]

theorem allWords_alpha {lines : List (List Char)} {w : List Char}
    (h : w ∈ allWords lines) : w ≠ [] ∧ w.all isLatinLetter = true := by
  rw [mem_allWords] at h
  obtain ⟨line, -, hw⟩ := h
  exact mem_lineWords_alpha hw

/-! ## Grouping and keys -/

theorem mem_groupFor {lines : List (List Char)} {k : ℕ} {w : List Char} :
    w ∈ groupFor lines k ↔ w ∈ allWords lines ∧ w.length = k := by
  simp [groupFor, List.mem_filter]

theorem le_foldr_max {l : List ℕ} {x : ℕ} (hx : x ∈ l) : x ≤ l.foldr Nat.max 0 := by
  induction l with
  | nil => simp at hx
  | cons a t ih =>
    rcases List.mem_cons.1 hx with rfl | hmem
    · exact Nat.le_max_left _ _
    · exact (ih hmem).trans (Nat.le_max_right _ _)

theorem foldr_max_mem : ∀ (l : List ℕ), l ≠ [] →
    l.foldr Nat.max 0 ∈ l ∨ l.foldr Nat.max 0 = 0
  | [], h => absurd rfl h
  | a :: t, _ => by
    have hfold : (a :: t).foldr Nat.max 0 = Nat.max a (t.foldr Nat.max 0) := rfl
    by_cases ht : t = []
    · subst ht
      simp
    · rcases foldr_max_mem t ht with hm | h0
      · rcases Nat.le_total a (t.foldr Nat.max 0) with hle | hle
        · have he : Nat.max a (t.foldr Nat.max 0) = t.foldr Nat.max 0 :=
            Nat.max_eq_right hle
          rw [hfold, he]
          exact Or.inl (List.mem_cons_of_mem _ hm)
        · have he : Nat.max a (t.foldr Nat.max 0) = a := Nat.max_eq_left hle
          rw [hfold, he]
          exact Or.inl (List.mem_cons_self _ _)
      · rw [hfold, h0]
        have he : Nat.max a 0 = a := Nat.max_zero a
        rw [he]
        exact Or.inl (List.mem_cons_self _ _)

theorem mem_sortedKeys {lines : List (List Char)} {k : ℕ} :
    k ∈ sortedKeys lines ↔ ∃ w ∈ allWords lines, w.length = k := by
  unfold sortedKeys
  rw [List.mem_filter, List.mem_range]
  constructor
  · rintro ⟨-, h⟩
    simpa [List.any_eq_true] using h
  · rintro ⟨w, hw, rfl⟩
    refine ⟨?_, ?_⟩
    · have : w.length ≤ maxWordLen lines :=
        le_foldr_max (List.mem_map_of_mem List.length hw)
      omega
    · simp only [List.any_eq_true, decide_eq_true_eq]
      exact ⟨w, hw, rfl⟩

theorem sortedKeys_pairwise (lines : List (List Char)) :
    (sortedKeys lines).Pairwise (· < ·) :=
  (List.pairwise_lt_range _).filter _

theorem headD_le_of_pairwise {l : List ℕ} (h : l.Pairwise (· < ·)) {k : ℕ}
    (hk : k ∈ l) : l.headD 0 ≤ k := by
  cases l with
  | nil => simp at hk
  | cons a t =>
    rcases List.mem_cons.1 hk with rfl | hmem
    · simp
    · simpa using le_of_lt ((List.pairwise_cons.1 h).1 k hmem)

theorem groupFor_ne_nil {lines : List (List Char)} {k : ℕ}
    (hk : k ∈ sortedKeys lines) : groupFor lines k ≠ [] := by
  rw [mem_sortedKeys] at hk
  obtain ⟨w, hw, hl⟩ := hk
  intro hnil
  have : w ∈ groupFor lines k := mem_groupFor.2 ⟨hw, hl⟩
  rw [hnil] at this
  simp at this

theorem groupSize_le_max {lines : List (List Char)} {k : ℕ}
    (hk : k ∈ sortedKeys lines) :
    (groupFor lines k).length ≤ maxGroupSize lines :=
  le_foldr_max (List.mem_map_of_mem _ hk)

theorem length_mem_sortedKeys {lines : List (List Char)} {w : List Char}
    (hw : w ∈ allWords lines) : w.length ∈ sortedKeys lines :=
  mem_sortedKeys.2 ⟨w, hw, rfl⟩

theorem sortedKeys_ne_nil {lines : List (List Char)} (h : allWords lines ≠ []) :
    sortedKeys lines ≠ [] := by
  obtain ⟨w, hw⟩ := List.exists_mem_of_ne_nil _ h
  intro hnil
  have := length_mem_sortedKeys hw
  rw [hnil] at this
  simp at this

theorem exists_group_eq_max {lines : List (List Char)} (h : allWords lines ≠ []) :
    ∃ k ∈ sortedKeys lines, (groupFor lines k).length = maxGroupSize lines := by
  have hk : sortedKeys lines ≠ [] := sortedKeys_ne_nil h
  have hmap : ((sortedKeys lines).map fun k => (groupFor lines k).length) ≠ [] := by
    simp [hk]
  rcases foldr_max_mem _ hmap with hm | h0
  · rw [List.mem_map] at hm
    obtain ⟨k, hk', he⟩ := hm
    exact ⟨k, hk', he⟩
  · exfalso
    obtain ⟨k, hkmem⟩ := List.exists_mem_of_ne_nil _ hk
    have h1 : (groupFor lines k).length ≤ maxGroupSize lines := groupSize_le_max hkmem
    have h2 : groupFor lines k ≠ [] := groupFor_ne_nil hkmem
    have : maxGroupSize lines = 0 := h0
    have : (groupFor lines k).length = 0 := by omega
    exact h2 (List.length_eq_zero.1 this)

/-! ## Sorted groups and padded rows -/

theorem sortedGroup_perm (lines : List (List Char)) (k : ℕ) :
    List.Perm (sortedGroup lines k) (groupFor lines k) :=
  List.perm_insertionSort _ _

theorem sortedGroup_sorted (lines : List (List Char)) (k : ℕ) :
    (sortedGroup lines k).Sorted (· ≤ ·) :=
  List.sorted_insertionSort _ _

theorem sortedGroup_length (lines : List (List Char)) (k : ℕ) :
    (sortedGroup lines k).length = (groupFor lines k).length :=
  (sortedGroup_perm lines k).length_eq

theorem mem_sortedGroup {lines : List (List Char)} {k : ℕ} {w : List Char} :
    w ∈ sortedGroup lines k ↔ w ∈ groupFor lines k :=
  (sortedGroup_perm lines k).mem_iff

theorem paddedRow_length (lines : List (List Char)) (k : ℕ) :
    (paddedRow lines k).length = maxGroupSize lines := by
  simp only [paddedRow, List.length_take, List.length_append, List.length_map,
    List.length_replicate]
  omega

theorem paddedRow_eq {lines : List (List Char)} {k : ℕ}
    (hk : (groupFor lines k).length ≤ maxGroupSize lines) :
    paddedRow lines k =
      (sortedGroup lines k).map some ++
        List.replicate (maxGroupSize lines - (sortedGroup lines k).length) none := by
  unfold paddedRow
  apply List.take_of_length_le
  have hs := sortedGroup_length lines k
  simp only [List.length_append, List.length_map, List.length_replicate]
  omega

theorem filterMap_paddedRow {lines : List (List Char)} {k : ℕ}
    (hk : k ∈ sortedKeys lines) :
    (paddedRow lines k).filterMap id = sortedGroup lines k := by
  rw [paddedRow_eq (groupSize_le_max hk)]
  simp

theorem mem_paddedRow {lines : List (List Char)} {k : ℕ} {w : List Char}
    (hk : k ∈ sortedKeys lines) :
    some w ∈ paddedRow lines k ↔ w ∈ groupFor lines k := by
  rw [paddedRow_eq (groupSize_le_max hk)]
  simp [List.mem_replicate, mem_sortedGroup]

/-! ## The shape of a successful run -/

theorem create_ok {lines : List (List Char)} {out : RustDictOutput}
    (h : create_rust_dictionary_file lines = Except.ok out) :
    allWords lines ≠ [] ∧
    out.headerInner = maxGroupSize lines ∧
    out.headerOuter = (sortedKeys lines).length - 1 ∧
    out.rows = ((sortedKeys lines).drop 1).map (paddedRow lines) := by
  unfold create_rust_dictionary_file at h
  split at h
  · exact absurd h (by simp)
  next hne =>
    have hout := Except.ok.inj h
    subst hout
    refine ⟨hne, rfl, by simp, ?_⟩
    simp [List.map_drop]

theorem rows_get {lines : List (List Char)} {out : RustDictOutput}
    (h : create_rust_dictionary_file lines = Except.ok out) {i : ℕ}
    (hi : i < out.rows.length) :
    i + 1 < (sortedKeys lines).length ∧
      out.rows[i] = paddedRow lines ((sortedKeys lines).getD (i + 1) 0) := by
  obtain ⟨-, -, -, hrows⟩ := create_ok h
  have hlen : out.rows.length = (sortedKeys lines).length - 1 := by
    rw [hrows]; simp
  have hbound : i + 1 < (sortedKeys lines).length := by omega
  refine ⟨hbound, ?_⟩
  have hbound' : 1 + i < (sortedKeys lines).length := by omega
  have hgd : (sortedKeys lines).getD (i + 1) 0 = (sortedKeys lines)[1 + i] := by
    rw [Nat.add_comm i 1, List.getD_eq_getElem _ _ hbound']
  rw [List.getElem_of_eq hrows hi, List.getElem_map, List.getElem_drop, hgd]

/-! ## Rows, keys and the excluded group -/

theorem headD_mem {l : List ℕ} (h : l ≠ []) : l.headD 0 ∈ l := by
  cases l with
  | nil => exact absurd rfl h
  | cons a t => exact List.mem_cons_self _ _

theorem mem_drop_one_iff {l : List ℕ} (hp : l.Pairwise (· < ·)) {k : ℕ} :
    k ∈ l.drop 1 ↔ k ∈ l ∧ k ≠ l.headD 0 := by
  cases l with
  | nil => simp
  | cons a t =>
    have hdrop : (a :: t).drop 1 = t := rfl
    rw [hdrop]
    constructor
    · intro hk
      have ha : a < k := (List.pairwise_cons.1 hp).1 k hk
      exact ⟨List.mem_cons_of_mem _ hk, by simp; omega⟩
    · rintro ⟨hk, hne⟩
      rcases List.mem_cons.1 hk with rfl | hmem
      · exact absurd (by simp) hne
      · exact hmem

theorem pairwise_eq_singleton {l : List ℕ} (hp : l.Pairwise (· < ·)) {x : ℕ}
    (hmem : x ∈ l) (hall : ∀ y ∈ l, y = x) : l = [x] := by
  cases l with
  | nil => simp at hmem
  | cons a t =>
    cases t with
    | nil => rw [hall a (List.mem_cons_self _ _)]
    | cons b u =>
      exfalso
      have hab : a < b := (List.pairwise_cons.1 hp).1 b (List.mem_cons_self _ _)
      have ha : a = x := hall a (List.mem_cons_self _ _)
      have hb : b = x := hall b (List.mem_cons_of_mem _ (List.mem_cons_self _ _))
      omega

theorem rows_mem {lines : List (List Char)} {out : RustDictOutput}
    (h : create_rust_dictionary_file lines = Except.ok out)
    {row : List (Option (List Char))} (hrow : row ∈ out.rows) :
    ∃ k ∈ sortedKeys lines,
      k ≠ (sortedKeys lines).headD 0 ∧ row = paddedRow lines k := by
  obtain ⟨-, -, -, hrows⟩ := create_ok h
  rw [hrows] at hrow
  obtain ⟨k, hk, rfl⟩ := List.mem_map.1 hrow
  obtain ⟨hkmem, hkne⟩ := (mem_drop_one_iff (sortedKeys_pairwise lines)).1 hk
  exact ⟨k, hkmem, hkne, rfl⟩

theorem entry_mem_rows_iff {lines : List (List Char)} {out : RustDictOutput}
    (h : create_rust_dictionary_file lines = Except.ok out) {w : List Char} :
    (∃ row ∈ out.rows, some w ∈ row) ↔
      w ∈ allWords lines ∧ w.length ≠ (sortedKeys lines).headD 0 := by
  obtain ⟨hne, -, -, hrows⟩ := create_ok h
  constructor
  · rintro ⟨row, hrow, hwrow⟩
    obtain ⟨k, hkmem, hkne, rfl⟩ := rows_mem h hrow
    have hw : w ∈ groupFor lines k := (mem_paddedRow hkmem).1 hwrow
    rw [mem_groupFor] at hw
    rw [hw.2]
    exact ⟨hw.1, hkne⟩
  · rintro ⟨hw, hlen⟩
    have hk : w.length ∈ sortedKeys lines := length_mem_sortedKeys hw
    have hkd : w.length ∈ (sortedKeys lines).drop 1 :=
      (mem_drop_one_iff (sortedKeys_pairwise lines)).2 ⟨hk, hlen⟩
    refine ⟨paddedRow lines w.length, ?_, ?_⟩
    · rw [hrows]
      exact List.mem_map_of_mem _ hkd
    · exact (mem_paddedRow hk).2 (mem_groupFor.2 ⟨hw, rfl⟩)

theorem mem_lineWords_iff {line w : List Char} :
    w ∈ lineWords line ↔
      (pySplitWs (firstColumn line)).length = 1 ∧
      w ∈ (splitOnP (fun c => c = ',') (firstColumn line)).map pyStrip ∧
      w ≠ [] ∧ w.all isLatinLetter = true := by
  unfold lineWords
  rw [mem_candidateWords]
  constructor
  · rintro ⟨h1, hmem, hne, hre⟩
    refine ⟨h1, hmem, hne, ?_⟩
    obtain ⟨piece, -, rfl⟩ := List.mem_map.1 hmem
    rw [reMatchAlpha_pyStrip] at hre
    exact (Bool.and_eq_true_iff.1 hre).2
  · rintro ⟨h1, hmem, hne, hall⟩
    refine ⟨h1, hmem, hne, ?_⟩
    obtain ⟨piece, -, rfl⟩ := List.mem_map.1 hmem
    rw [reMatchAlpha_pyStrip]
    refine Bool.and_eq_true_iff.2 ⟨?_, hall⟩
    simpa [List.isEmpty_iff] using hne

/-! ## Cell-level structure of a padded row -/

theorem paddedRow_getElem_some {lines : List (List Char)} {k : ℕ}
    (hk : k ∈ sortedKeys lines) {i : ℕ} (hi : i < (paddedRow lines k).length)
    {w : List Char} (hw : (paddedRow lines k)[i] = some w) :
    ∃ hi' : i < (sortedGroup lines k).length, (sortedGroup lines k)[i] = w := by
  have heq := paddedRow_eq (groupSize_le_max hk)
  by_cases hlt : i < (sortedGroup lines k).length
  · refine ⟨hlt, ?_⟩
    have : (paddedRow lines k)[i] = some ((sortedGroup lines k)[i]) := by
      rw [List.getElem_of_eq heq hi]
      rw [List.getElem_append_left (by simpa using hlt)]
      exact List.getElem_map _
    rw [this] at hw
    exact Option.some.inj hw
  · exfalso
    push_neg at hlt
    have : (paddedRow lines k)[i] = none := by
      rw [List.getElem_of_eq heq hi]
      rw [List.getElem_append_right (by simpa using hlt)]
      exact List.getElem_replicate _ _
    rw [this] at hw
    exact Option.noConfusion hw

theorem paddedRow_getElem_of_lt {lines : List (List Char)} {k : ℕ}
    (hk : k ∈ sortedKeys lines) {i : ℕ}
    (hi' : i < (sortedGroup lines k).length) :
    ∃ hi : i < (paddedRow lines k).length,
      (paddedRow lines k)[i] = some ((sortedGroup lines k)[i]) := by
  have heq := paddedRow_eq (groupSize_le_max hk)
  have hlen : (sortedGroup lines k).length ≤ (paddedRow lines k).length := by
    rw [paddedRow_length, sortedGroup_length]
    exact groupSize_le_max hk
  have hi : i < (paddedRow lines k).length := lt_of_lt_of_le hi' hlen
  refine ⟨hi, ?_⟩
  rw [List.getElem_of_eq heq hi]
  rw [List.getElem_append_left (by simpa using hi')]
  exact List.getElem_map _

theorem count_groupFor {lines : List (List Char)} {w : List Char} :
    (groupFor lines w.length).count w = (allWords lines).count w := by
  unfold groupFor
  exact List.count_filter (by simp)

theorem perm_count {l₁ l₂ : List (List Char)}
    (h : List.Perm l₁ l₂) (w : List Char) : l₁.count w = l₂.count w := by
  rw [List.count_eq_countP, List.count_eq_countP]
  exact h.countP_eq _

/-! ## Claim theorems -/

/-- C1: in padded mode a word from the input is retained iff its line's first
tab-separated column, after trimming, splits on whitespace into exactly one
token, and the word itself — a trimmed comma-separated sub-entry of that
column — is non-empty and matches `^[A-Za-z]+$`; consequently every entry
appearing in the emitted table is one or more Latin letters and nothing
else. -/
theorem C1_padded_filter (lines : List (List Char)) (out : RustDictOutput)
    (h : create_rust_dictionary_file lines = Except.ok out) :
    (∀ w : List Char, w ∈ allWords lines ↔ ∃ line ∈ lines,
        (pySplitWs (firstColumn line)).length = 1 ∧
        w ∈ (splitOnP (fun c => c = ',') (firstColumn line)).map pyStrip ∧
        w ≠ [] ∧ w.all isLatinLetter = true) ∧
    (∀ row ∈ out.rows, ∀ w : List Char, some w ∈ row →
        w ≠ [] ∧ w.all isLatinLetter = true) := by
  constructor
  · intro w
    rw [mem_allWords]
    constructor
    · rintro ⟨line, hline, hw⟩
      exact ⟨line, hline, mem_lineWords_iff.1 hw⟩
    · rintro ⟨line, hline, hw⟩
      exact ⟨line, hline, mem_lineWords_iff.2 hw⟩
  · intro row hrow w hw
    obtain ⟨k, hkmem, -, rfl⟩ := rows_mem h hrow
    have hwg : w ∈ groupFor lines k := (mem_paddedRow hkmem).1 hw
    exact allWords_alpha (mem_groupFor.1 hwg).1

/-- C1 witness: the theorem applied to a concrete two-line input. -/
theorem C1_padded_filter_witness :
    (∀ w : List Char, w ∈ allWords [['a','b','\t','x'], ['c','d','e']] ↔
        ∃ line ∈ [['a','b','\t','x'], ['c','d','e']],
        (pySplitWs (firstColumn line)).length = 1 ∧
        w ∈ (splitOnP (fun c => c = ',') (firstColumn line)).map pyStrip ∧
        w ≠ [] ∧ w.all isLatinLetter = true) ∧
    (∀ row ∈ (RustDictOutput.mk 1 1 [[some ['c','d','e']]]).rows,
      ∀ w : List Char, some w ∈ row → w ≠ [] ∧ w.all isLatinLetter = true) :=
  C1_padded_filter [['a','b','\t','x'], ['c','d','e']]
    (RustDictOutput.mk 1 1 [[some ['c','d','e']]]) rfl

/-- C2: in padded mode `max_size` (the emitted inner dimension) is the size
of the largest group over all groups — the smallest-length group, later
excluded from emission, participates in the maximum — and every emitted row
has exactly `max_size` columns. -/
theorem C2_max_size (lines : List (List Char)) (out : RustDictOutput)
    (h : create_rust_dictionary_file lines = Except.ok out) :
    (∀ k ∈ sortedKeys lines, (groupFor lines k).length ≤ out.headerInner) ∧
    (∃ k ∈ sortedKeys lines, (groupFor lines k).length = out.headerInner) ∧
    (groupFor lines ((sortedKeys lines).headD 0)).length ≤ out.headerInner ∧
    (∀ row ∈ out.rows, row.length = out.headerInner) := by
  obtain ⟨hne, hinner, -, hrows⟩ := create_ok h
  have hkeys : sortedKeys lines ≠ [] := sortedKeys_ne_nil hne
  refine ⟨?_, ?_, ?_, ?_⟩
  · intro k hk
    rw [hinner]
    exact groupSize_le_max hk
  · rw [hinner]
    exact exists_group_eq_max hne
  · rw [hinner]
    exact groupSize_le_max (headD_mem hkeys)
  · intro row hrow
    obtain ⟨k, -, -, rfl⟩ := rows_mem h hrow
    rw [hinner]
    exact paddedRow_length lines k

/-- C2 witness: groups `{1 ↦ ["a"], 2 ↦ ["bc", "de"]}`, `max_size = 2`,
one emitted row of two columns. -/
theorem C2_max_size_witness :
    (∀ k ∈ sortedKeys [['a','\t','q'], ['b','c'], ['d','e','\t']],
      (groupFor [['a','\t','q'], ['b','c'], ['d','e','\t']] k).length ≤
        (RustDictOutput.mk 2 1 [[some ['b','c'], some ['d','e']]]).headerInner) ∧
    (∃ k ∈ sortedKeys [['a','\t','q'], ['b','c'], ['d','e','\t']],
      (groupFor [['a','\t','q'], ['b','c'], ['d','e','\t']] k).length =
        (RustDictOutput.mk 2 1 [[some ['b','c'], some ['d','e']]]).headerInner) ∧
    (groupFor [['a','\t','q'], ['b','c'], ['d','e','\t']]
        ((sortedKeys [['a','\t','q'], ['b','c'], ['d','e','\t']]).headD 0)).length ≤
      (RustDictOutput.mk 2 1 [[some ['b','c'], some ['d','e']]]).headerInner ∧
    (∀ row ∈ (RustDictOutput.mk 2 1 [[some ['b','c'], some ['d','e']]]).rows,
      row.length =
        (RustDictOutput.mk 2 1 [[some ['b','c'], some ['d','e']]]).headerInner) :=
  C2_max_size [['a','\t','q'], ['b','c'], ['d','e','\t']]
    (RustDictOutput.mk 2 1 [[some ['b','c'], some ['d','e']]]) rfl

/-- C3: in padded mode exactly the group with the smallest length key present
is excluded from emission — an entry appears in the emitted rows iff it
survives filtering and its length differs from the smallest key — and the
declared dimensions are `[max_size][group_count - 1]` where `group_count` is
the number of distinct length keys among surviving entries. -/
theorem C3_exclusion_and_dims (lines : List (List Char)) (out : RustDictOutput)
    (h : create_rust_dictionary_file lines = Except.ok out) :
    out.headerInner = maxGroupSize lines ∧
    out.headerOuter = (sortedKeys lines).length - 1 ∧
    out.rows.length = (sortedKeys lines).length - 1 ∧
    (∀ k : ℕ, k ∈ sortedKeys lines ↔ ∃ w ∈ allWords lines, w.length = k) ∧
    (∀ k ∈ sortedKeys lines, (sortedKeys lines).headD 0 ≤ k) ∧
    (∀ w : List Char, (∃ row ∈ out.rows, some w ∈ row) ↔
        w ∈ allWords lines ∧ w.length ≠ (sortedKeys lines).headD 0) := by
  obtain ⟨hne, hinner, houter, hrows⟩ := create_ok h
  refine ⟨hinner, houter, ?_, ?_, ?_, ?_⟩
  · rw [hrows]
    simp
  · intro k
    exact mem_sortedKeys
  · intro k hk
    exact headD_le_of_pairwise (sortedKeys_pairwise lines) hk
  · intro w
    exact entry_mem_rows_iff h

/-- C3 witness: keys `{1, 2}`; the length-1 group (`["c"]`) is excluded, the
sole emitted entry is the length-2 word `"ab"`. -/
theorem C3_exclusion_and_dims_witness :
    (RustDictOutput.mk 1 1 [[some ['a','b']]]).headerInner =
        maxGroupSize [['a','b','\t'],['c','\t']] ∧
    (RustDictOutput.mk 1 1 [[some ['a','b']]]).headerOuter =
        (sortedKeys [['a','b','\t'],['c','\t']]).length - 1 ∧
    (RustDictOutput.mk 1 1 [[some ['a','b']]]).rows.length =
        (sortedKeys [['a','b','\t'],['c','\t']]).length - 1 ∧
    (∀ k : ℕ, k ∈ sortedKeys [['a','b','\t'],['c','\t']] ↔
        ∃ w ∈ allWords [['a','b','\t'],['c','\t']], w.length = k) ∧
    (∀ k ∈ sortedKeys [['a','b','\t'],['c','\t']],
        (sortedKeys [['a','b','\t'],['c','\t']]).headD 0 ≤ k) ∧
    (∀ w : List Char,
        (∃ row ∈ (RustDictOutput.mk 1 1 [[some ['a','b']]]).rows, some w ∈ row) ↔
        w ∈ allWords [['a','b','\t'],['c','\t']] ∧
          w.length ≠ (sortedKeys [['a','b','\t'],['c','\t']]).headD 0) :=
  C3_exclusion_and_dims [['a','b','\t'],['c','\t']]
    (RustDictOutput.mk 1 1 [[some ['a','b']]]) rfl

/-- C4: every entry placed in a group has character length exactly the
group's key, and the emitted groups are aligned with the strictly ascending
list of keys with no key repeated: the row at index `i` corresponds to key
`sortedKeys[i+1]` (index `0` of the full key list being the excluded group),
and every real entry of that row has exactly that length. -/
theorem C4_keys_ascending (lines : List (List Char)) (out : RustDictOutput)
    (h : create_rust_dictionary_file lines = Except.ok out) :
    (sortedKeys lines).Pairwise (· < ·) ∧
    (∀ w : List Char, ∀ k : ℕ, w ∈ groupFor lines k → w.length = k) ∧
    (∀ i : ℕ, ∀ hi : i < out.rows.length, ∀ w : List Char,
        some w ∈ out.rows[i] → w.length = (sortedKeys lines).getD (i + 1) 0) := by
  refine ⟨sortedKeys_pairwise lines, ?_, ?_⟩
  · intro w k hw
    exact (mem_groupFor.1 hw).2
  · intro i hi w hw
    obtain ⟨hbound, heq⟩ := rows_get h hi
    rw [heq] at hw
    have hkmem : (sortedKeys lines).getD (i + 1) 0 ∈ sortedKeys lines := by
      rw [List.getD_eq_getElem _ _ hbound]
      exact List.getElem_mem _
    exact (mem_groupFor.1 ((mem_paddedRow hkmem).1 hw)).2

/-- C4 witness: keys `{2, 3}`; the emitted row 0 corresponds to key
`sortedKeys[1] = 3` and its entry `"xyz"` has length 3. -/
theorem C4_keys_ascending_witness :
    (sortedKeys [['x','y','z'],['a','b']]).Pairwise (· < ·) ∧
    (∀ w : List Char, ∀ k : ℕ,
        w ∈ groupFor [['x','y','z'],['a','b']] k → w.length = k) ∧
    (∀ i : ℕ,
      ∀ hi : i < (RustDictOutput.mk 1 1 [[some ['x','y','z']]]).rows.length,
      ∀ w : List Char,
        some w ∈ (RustDictOutput.mk 1 1 [[some ['x','y','z']]]).rows[i] →
        w.length = (sortedKeys [['x','y','z'],['a','b']]).getD (i + 1) 0) :=
  C4_keys_ascending [['x','y','z'],['a','b']]
    (RustDictOutput.mk 1 1 [[some ['x','y','z']]]) rfl

/-- C6: if zero entries survive the single-token/letters-only filtering (for
example on an empty input file), the transform fails with the `ValueError`
raised by `max()` on an empty collection — a data error — and produces no
output content at all (the `ValueError` is raised before the output file is
opened, so the file is not written or modified). -/
theorem C6_empty_is_error (lines : List (List Char))
    (h : allWords lines = []) :
    create_rust_dictionary_file lines =
        Except.error "max() arg is an empty sequence" ∧
    ∀ out : RustDictOutput, create_rust_dictionary_file lines ≠ Except.ok out := by
  have herr : create_rust_dictionary_file lines =
      Except.error "max() arg is an empty sequence" := by
    unfold create_rust_dictionary_file
    rw [if_pos h]
  refine ⟨herr, ?_⟩
  intro out hok
  rw [herr] at hok
  exact Except.noConfusion hok

/-- C6 witness: the empty input file. -/
theorem C6_empty_is_error_witness :
    create_rust_dictionary_file [] =
        Except.error "max() arg is an empty sequence" ∧
    ∀ out : RustDictOutput, create_rust_dictionary_file [] ≠ Except.ok out :=
  C6_empty_is_error [] rfl

/-- C8: a line with no tab character is not rejected — the whole line, after
trimming surrounding whitespace, is the candidate first-column field, and it
then goes through the normal filtering steps. -/
theorem C8_no_tab_tolerated (line : List Char) (h : '\t' ∉ line) :
    firstColumn line = pyStrip line ∧
    lineWords line = candidateWords (pyStrip line) := by
  have hsplit : splitOnP (fun c => c = '\t') line = [line] := by
    apply splitOnP_eq_of_forall
    intro c hc
    simp only [decide_eq_false_iff_not]
    intro hct
    exact h (hct ▸ hc)
  have hfc : firstColumn line = pyStrip line := by
    unfold firstColumn
    rw [hsplit]
    rfl
  exact ⟨hfc, by unfold lineWords; rw [hfc]⟩

/-- C8 witness: the tab-free line `"ab"`. -/
theorem C8_no_tab_tolerated_witness :
    firstColumn ['a','b'] = pyStrip ['a','b'] ∧
    lineWords ['a','b'] = candidateWords (pyStrip ['a','b']) :=
  C8_no_tab_tolerated ['a','b'] (by decide)

/-- C10: if at least one entry survives filtering but all surviving entries
share a single character length (exactly one group exists), the transform
succeeds — no validation error — and emits a table with zero rows, declaring
dimensions `[max_size][0]` (here `max_size` is the size of that single group,
the number of surviving entries). -/
theorem C10_single_group_empty_table (lines : List (List Char))
    (hne : allWords lines ≠ [])
    (hone : ∀ v ∈ allWords lines, ∀ w ∈ allWords lines, v.length = w.length) :
    ∃ out : RustDictOutput, create_rust_dictionary_file lines = Except.ok out ∧
      out.rows = [] ∧ out.headerOuter = 0 ∧
      out.headerInner = (allWords lines).length := by
  obtain ⟨w0, hw0⟩ := List.exists_mem_of_ne_nil _ hne
  have hkeys : sortedKeys lines = [w0.length] := by
    apply pairwise_eq_singleton (sortedKeys_pairwise lines)
      (length_mem_sortedKeys hw0)
    intro y hy
    obtain ⟨w, hw, rfl⟩ := mem_sortedKeys.1 hy
    exact hone w hw w0 hw0
  have hgroup : groupFor lines w0.length = allWords lines := by
    unfold groupFor
    apply List.filter_eq_self.2
    intro w hw
    simp only [decide_eq_true_eq]
    exact hone w hw w0 hw0
  have hok : create_rust_dictionary_file lines = Except.ok
      { headerInner := maxGroupSize lines
        headerOuter := ((sortedKeys lines).map (paddedRow lines)).length - 1
        rows := ((sortedKeys lines).map (paddedRow lines)).drop 1 } := by
    unfold create_rust_dictionary_file
    rw [if_neg hne]
  refine ⟨_, hok, ?_, ?_, ?_⟩
  · simp [hkeys]
  · simp [hkeys]
  · show maxGroupSize lines = (allWords lines).length
    unfold maxGroupSize
    rw [hkeys]
    simp [hgroup]

/-- C10 witness: two surviving words, both of length 2: the run succeeds and
emits zero rows with declared dimensions `[2][0]`. -/
theorem C10_single_group_empty_table_witness :
    ∃ out : RustDictOutput,
      create_rust_dictionary_file [['a','b'],['c','d']] = Except.ok out ∧
      out.rows = [] ∧ out.headerOuter = 0 ∧
      out.headerInner = (allWords [['a','b'],['c','d']]).length :=
  C10_single_group_empty_table [['a','b'],['c','d']] (by decide) (by decide)

/-- C5: within every emitted group the real entries appear in ascending
lexicographic order, all absent markers come after all real entries — the row
is literally its real entries followed by `none`s — and padding never
reorders, removes or truncates real entries: the real entries are a
permutation of the full group. -/
theorem C5_sorted_entries_then_markers (lines : List (List Char))
    (out : RustDictOutput)
    (h : create_rust_dictionary_file lines = Except.ok out) :
    ∀ row ∈ out.rows, ∃ k ∈ sortedKeys lines,
      (row.filterMap id).Sorted (· ≤ ·) ∧
      row = (row.filterMap id).map some ++
        List.replicate (row.length - (row.filterMap id).length) none ∧
      List.Perm (row.filterMap id) (groupFor lines k) := by
  intro row hrow
  obtain ⟨k, hkmem, -, rfl⟩ := rows_mem h hrow
  have hfm := filterMap_paddedRow hkmem
  refine ⟨k, hkmem, ?_, ?_, ?_⟩
  · rw [hfm]
    exact sortedGroup_sorted lines k
  · rw [hfm, paddedRow_length]
    exact paddedRow_eq (groupSize_le_max hkmem)
  · rw [hfm]
    exact sortedGroup_perm lines k

/-- C5 witness: group 2 holds `["zy", "ab"]` in input order; the emitted row
is `[Some("ab"), Some("zy")]`, sorted, with no markers needed. -/
theorem C5_sorted_entries_then_markers_witness :
    ∃ k ∈ sortedKeys [['b','\t'],['z','y','\t'],['a','b','\t']],
      (([some ['a','b'], some ['z','y']] :
          List (Option (List Char))).filterMap id).Sorted (· ≤ ·) ∧
      ([some ['a','b'], some ['z','y']] : List (Option (List Char))) =
        (([some ['a','b'], some ['z','y']] :
            List (Option (List Char))).filterMap id).map some ++
          List.replicate
            (([some ['a','b'], some ['z','y']] :
                List (Option (List Char))).length -
              (([some ['a','b'], some ['z','y']] :
                  List (Option (List Char))).filterMap id).length) none ∧
      List.Perm
        (([some ['a','b'], some ['z','y']] :
            List (Option (List Char))).filterMap id)
        (groupFor [['b','\t'],['z','y','\t'],['a','b','\t']] k) :=
  C5_sorted_entries_then_markers [['b','\t'],['z','y','\t'],['a','b','\t']]
    (RustDictOutput.mk 2 1 [[some ['a','b'], some ['z','y']]]) rfl
    [some ['a','b'], some ['z','y']] (List.mem_cons_self _ _)

/-- C7 counterexample: with surviving words `"abc"` and `"abcde"` the length
keys are `{3, 5}`; the sole emitted entry `"abcde"` sits in the emitted group
at position 1 (position 2 counting the excluded smallest group), yet its
character length is 5 — not its group's numeric position under either
counting, refuting the claim for this valid input. -/
theorem C7_counterexample :
    create_rust_dictionary_file
        [['a','b','c','\t','x'],['a','b','c','d','e','\t','y']] =
      Except.ok (RustDictOutput.mk 1 1 [[some ['a','b','c','d','e']]]) ∧
    sortedKeys [['a','b','c','\t','x'],['a','b','c','d','e','\t','y']] =
      [3, 5] ∧
    (['a','b','c','d','e'] : List Char).length = 5 ∧
    (5 : ℕ) ≠ 1 ∧ (5 : ℕ) ≠ 2 :=
  ⟨rfl, rfl, rfl, by decide, by decide⟩

/-- C7 (amended): when the surviving length keys are exactly the contiguous
range `1, 2, …, n`, every emitted entry's character length equals the numeric
position of its group in ascending order counting the excluded shortest
group: the entry in emitted row `i` has length `i + 2`.  (The original claim
fails when the keys are not contiguous from 1: see the counterexample.) -/
theorem C7_amended_position (lines : List (List Char)) (out : RustDictOutput)
    (n : ℕ) (h : create_rust_dictionary_file lines = Except.ok out)
    (hk : sortedKeys lines = List.range' 1 n) :
    ∀ i : ℕ, ∀ hi : i < out.rows.length, ∀ w : List Char,
      some w ∈ out.rows[i] → w.length = i + 2 := by
  intro i hi w hw
  obtain ⟨hbound, heq⟩ := rows_get h hi
  rw [heq] at hw
  have hkmem : (sortedKeys lines).getD (i + 1) 0 ∈ sortedKeys lines := by
    rw [List.getD_eq_getElem _ _ hbound]
    exact List.getElem_mem _
  have hlen := (mem_groupFor.1 ((mem_paddedRow hkmem).1 hw)).2
  rw [List.getD_eq_getElem _ _ hbound] at hlen
  have hb2 : i + 1 < (List.range' 1 n).length := by
    rw [← hk]
    exact hbound
  rw [List.getElem_of_eq hk hbound, List.getElem_range'_1] at hlen
  omega

/-- C7 amended witness: keys exactly `{1, 2}`; the entry `"ab"` of emitted
row 0 has length `0 + 2 = 2`. -/
theorem C7_amended_position_witness :
    (['a','b'] : List Char).length = 0 + 2 :=
  C7_amended_position [['a','\t','x'],['a','b','\t','y']]
    (RustDictOutput.mk 1 1 [[some ['a','b']]]) 2 rfl (by decide)
    0 (by decide) ['a','b'] (by decide)

/-- C9: duplicates are preserved with multiplicity — a word occurring as a
real entry of an emitted row occurs there exactly as many times as it
survives filtering from the input (no deduplication), and its occurrences
are adjacent: any cell between two cells holding the word also holds it. -/
theorem C9_duplicates_preserved (lines : List (List Char))
    (out : RustDictOutput)
    (h : create_rust_dictionary_file lines = Except.ok out) :
    ∀ row ∈ out.rows, ∀ w : List Char, some w ∈ row →
      (row.filterMap id).count w = (allWords lines).count w ∧
      ∀ i j l : Fin row.length, i ≤ j → j ≤ l →
        row.get i = some w → row.get l = some w → row.get j = some w := by
  intro row hrow w hw
  obtain ⟨k, hkmem, -, rfl⟩ := rows_mem h hrow
  have hwg : w ∈ groupFor lines k := (mem_paddedRow hkmem).1 hw
  have hwk : w.length = k := (mem_groupFor.1 hwg).2
  constructor
  · rw [filterMap_paddedRow hkmem, perm_count (sortedGroup_perm lines k) w,
      ← hwk]
    exact count_groupFor
  · intro i j l hij hjl hi hl
    rw [List.get_eq_getElem] at hi hl
    obtain ⟨hi', hieq⟩ := paddedRow_getElem_some hkmem i.isLt hi
    obtain ⟨hl', hleq⟩ := paddedRow_getElem_some hkmem l.isLt hl
    have hij' : i.val ≤ j.val := hij
    have hjl' : j.val ≤ l.val := hjl
    have hj' : j.val < (sortedGroup lines k).length := lt_of_le_of_lt hjl' hl'
    have hs := sortedGroup_sorted lines k
    have hle : ∀ (a b : ℕ) (ha : a < (sortedGroup lines k).length)
        (hb : b < (sortedGroup lines k).length), a ≤ b →
        (sortedGroup lines k)[a] ≤ (sortedGroup lines k)[b] := by
      intro a b ha hb hab
      have := @List.Sorted.rel_get_of_le _ _ _ _ hs ⟨a, ha⟩ ⟨b, hb⟩ hab
      simpa using this
    have h1 : w ≤ (sortedGroup lines k)[j.val] := by
      rw [← hieq]
      exact hle i.val j.val hi' hj' hij'
    have h2 : (sortedGroup lines k)[j.val] ≤ w := by
      rw [← hleq]
      exact hle j.val l.val hj' hl' hjl'
    have hjw : (sortedGroup lines k)[j.val] = w := le_antisymm h2 h1
    obtain ⟨hj2, hjeq⟩ := paddedRow_getElem_of_lt hkmem hj'
    rw [List.get_eq_getElem]
    exact hjeq.trans (congrArg some hjw)

/-- C9 witness: the word `"abc"` survives twice; both copies appear,
adjacently, in the emitted length-3 row. -/
theorem C9_duplicates_preserved_witness :
    (([some ['a','b','c'], some ['a','b','c']] :
        List (Option (List Char))).filterMap id).count ['a','b','c'] =
      (allWords [['a','\t'],['a','b','c'],['a','b','c']]).count ['a','b','c'] ∧
    ∀ i j l : Fin ([some ['a','b','c'], some ['a','b','c']] :
        List (Option (List Char))).length, i ≤ j → j ≤ l →
      ([some ['a','b','c'], some ['a','b','c']] :
          List (Option (List Char))).get i = some ['a','b','c'] →
      ([some ['a','b','c'], some ['a','b','c']] :
          List (Option (List Char))).get l = some ['a','b','c'] →
      ([some ['a','b','c'], some ['a','b','c']] :
          List (Option (List Char))).get j = some ['a','b','c'] :=
  C9_duplicates_preserved [['a','\t'],['a','b','c'],['a','b','c']]
    (RustDictOutput.mk 2 1 [[some ['a','b','c'], some ['a','b','c']]]) rfl
    [some ['a','b','c'], some ['a','b','c']] (List.mem_cons_self _ _)
    ['a','b','c'] (List.mem_cons_self _ _)

end CreateDict
